import Mathlib

/-!
Shallow embedding of the dataflow primitive library and the two attention
pipelines of the attention crate (templates/reduce.rs, templates/scan.rs,
templates/zip.rs, templates/repeat.rs, templates/matmul.rs,
apps/naive.rs, apps/agnostic.rs).

Channels are modelled as finite lists of timestamped elements; a dequeue
advances the local clock to at least the element timestamp, and an enqueue
does not advance the clock in the absence of back-pressure (the model is
the uncontended execution, matching section 5 of the design notes where a
clock advances only through incr_cycles, dequeue timestamps and
back-pressure waits).  Floating point is replaced by a linear ordered
field together with an abstract exponential map given by hypotheses where
a claim needs them.
-/

/-- A timestamped channel element, mirroring ChannelElement of the runtime:
a cycle count together with a payload. -/
structure CE (α : Type) where
  time : Nat
  data : α
deriving DecidableEq, Repr

/-- Per-token streaming softmax state, from apps/agnostic.rs (struct
RunningResult). -/
structure RunningResult (F : Type) where
  cur_max : F
  delta_max : F
  exp : F
  delta_elem : F
deriving DecidableEq, Repr

/-- The Scan update closure of agnostic_attention (apps/agnostic.rs, the
online softmax recurrence), with the exponential abstracted as E. -/
def scanUpdate {F : Type} [LinearOrderedField F] (E : F → F) (new : F)
    (old : Option (RunningResult F)) : RunningResult F :=
  match old with
  | some prev =>
    let new_max := max new prev.cur_max
    { cur_max := new_max
      delta_max := prev.cur_max - new_max
      exp := E (new - new_max)
      delta_elem := E (prev.cur_max - new_max) }
  | none =>
    { cur_max := new, delta_max := new, exp := 1, delta_elem := E new }

/-- The residual (row denominator) Reduce update closure of
agnostic_attention. -/
def residualUpdate {F : Type} [LinearOrderedField F] (rr : RunningResult F)
    (old : Option F) : F :=
  match old with
  | some old_val => old_val * rr.delta_elem + rr.exp
  | none => rr.exp

/-- The V-row building Reduce update closure of agnostic_attention: push the
incoming scalar onto the vector accumulator. -/
def vRowUpdate {F : Type} (new : F) (old : Option (List F)) : List F :=
  match old with
  | some v => v ++ [new]
  | none => [new]

/-- The vector-product Reduce update closure of agnostic_attention.  The Rust
code indexes v_vector.value[i] for every i below the accumulator length, which
panics when the incoming row is shorter than the accumulator; the embedding
returns none in exactly that case. -/
def prodUpdate {F : Type} [LinearOrderedField F] (rr : RunningResult F)
    (v : List F) (old : Option (List F)) : Option (List F) :=
  match old with
  | some old_val =>
    if old_val.length ≤ v.length then
      some (List.zipWith (fun o vi => o * rr.delta_elem + rr.exp * vi) old_val v)
    else none
  | none => some (v.map (fun x => x * rr.exp))

/-- The addition update closure used by the row-sum Reduce of naive.rs and by
the Reduce and Scan unit tests. -/
def addUpdate {F : Type} [Add F] (new : F) (old : Option F) : F :=
  match old with
  | some o => new + o
  | none => new

/-- The accumulator produced by the inner for-loop of Reduce::run over one
window: starting from the given accumulator, fold the update function over the
dequeued elements (reduce.rs lines 51 to 65). -/
def windowFold {α β : Type} (f : α → Option β → β) (xs : List α)
    (acc : Option β) : Option β :=
  xs.foldl (fun a x => some (f x a)) acc

/-- The outputs emitted by the inner for-loop of Scan::run over one window,
one per dequeued element (scan.rs lines 51 to 74). -/
def scanWindow {α β : Type} (f : α → Option β → β) :
    Option β → List α → List β
  | _, [] => []
  | acc, x :: rest =>
    let v := f x acc
    v :: scanWindow f (some v) rest

/-- Terminal behavior of one Reduce block run on a finite input stream:
either a clean exit (failed dequeue on the first iteration of a window), a
panic from a failed dequeue mid-window (the Premature End panic), or a panic
from unwrapping an empty accumulator.  Each case records the window outputs
enqueued before exit. -/
inductive ReduceOutcome (β : Type) where
  | clean (outs : List β)
  | prematureEnd (outs : List β)
  | unwrapPanic (outs : List β)
deriving DecidableEq, Repr

/-- The outputs enqueued before the block exited. -/
def ReduceOutcome.outputs {β : Type} : ReduceOutcome β → List β
  | .clean o => o
  | .prematureEnd o => o
  | .unwrapPanic o => o

/-- Whether the block exited cleanly. -/
def ReduceOutcome.isClean {β : Type} : ReduceOutcome β → Bool
  | .clean _ => true
  | _ => false

/-- Whether the block hit the Premature End panic. -/
def ReduceOutcome.isPrematureEnd {β : Type} : ReduceOutcome β → Bool
  | .prematureEnd _ => true
  | _ => false

/-- Whether the block panicked unwrapping an empty accumulator. -/
def ReduceOutcome.isUnwrapPanic {β : Type} : ReduceOutcome β → Bool
  | .unwrapPanic _ => true
  | _ => false

/-- Prepend one emitted output to an outcome. -/
def consOut {β : Type} (b : β) : ReduceOutcome β → ReduceOutcome β
  | .clean o => .clean (b :: o)
  | .prematureEnd o => .prematureEnd (b :: o)
  | .unwrapPanic o => .unwrapPanic (b :: o)

/-- Reduce::run (reduce.rs lines 47 to 82) on a finite input stream.  Per
window: if the window size W is zero the loop dequeues nothing and the
accumulator unwrap panics; if the stream is exhausted at the first dequeue of
the window the block returns cleanly; if it is exhausted mid-window the block
panics; otherwise the window of W elements is folded and its accumulator
emitted. -/
def reduceRun {α β : Type} (W : Nat) (f : α → Option β → β) :
    List α → ReduceOutcome β
  | [] => if W = 0 then .unwrapPanic [] else .clean []
  | x :: rest =>
    if _hW : W = 0 then .unwrapPanic []
    else if _hlen : (x :: rest).length < W then .prematureEnd []
    else
      match windowFold f ((x :: rest).take W) none with
      | none => .unwrapPanic []
      | some out => consOut out (reduceRun W f ((x :: rest).drop W))
termination_by xs => xs.length
decreasing_by
  simp only [List.length_drop]
  omega

/-- Terminal behavior of one Scan block run on a finite input stream.  A
window size of zero makes the run loop spin forever without dequeuing or
emitting, recorded as diverge. -/
inductive ScanOutcome (β : Type) where
  | clean (outs : List β)
  | prematureEnd (outs : List β)
  | diverge
deriving DecidableEq, Repr

/-- The outputs enqueued before the Scan block exited. -/
def ScanOutcome.outputs {β : Type} : ScanOutcome β → List β
  | .clean o => o
  | .prematureEnd o => o
  | .diverge => []

/-- Scan::run (scan.rs lines 48 to 76) on a finite input stream.  Per window
of W elements one output is emitted per dequeued element; exhaustion at the
first dequeue of a window is a clean exit, exhaustion mid-window is the
Premature End panic (after the outputs of the consumed part of the window
were already emitted). -/
def scanRun {α β : Type} (W : Nat) (f : α → Option β → β) :
    List α → ScanOutcome β
  | [] => if W = 0 then .diverge else .clean []
  | x :: rest =>
    if _hW : W = 0 then .diverge
    else if _hlen : (x :: rest).length < W then
      .prematureEnd (scanWindow f none (x :: rest))
    else
      match scanRun W f ((x :: rest).drop W) with
      | .clean outs => .clean (scanWindow f none ((x :: rest).take W) ++ outs)
      | .prematureEnd outs =>
        .prematureEnd (scanWindow f none ((x :: rest).take W) ++ outs)
      | .diverge => .diverge
termination_by xs => xs.length
decreasing_by
  simp only [List.length_drop]
  omega

/-- Terminal behavior of a Zip block: clean exit when both inputs close in
the same iteration, mismatch panic when only one side closes. -/
inductive ZipOutcome (γ : Type) where
  | clean (outs : List γ)
  | mismatch (outs : List γ)
deriving DecidableEq, Repr

/-- The outputs enqueued before the Zip block exited. -/
def ZipOutcome.outputs {γ : Type} : ZipOutcome γ → List γ
  | .clean o => o
  | .mismatch o => o

/-- Whether the Zip block exited cleanly. -/
def ZipOutcome.isClean {γ : Type} : ZipOutcome γ → Bool
  | .clean _ => true
  | _ => false

/-- Prepend one emitted output to a Zip outcome. -/
def zipConsOut {γ : Type} (g : γ) : ZipOutcome γ → ZipOutcome γ
  | .clean o => .clean (g :: o)
  | .mismatch o => .mismatch (g :: o)

/-- Zip::run (zip.rs lines 44 to 71) on two finite timestamped streams, with
the local clock made explicit: the two peeks and dequeues advance the clock
to at least both element timestamps, the pair is emitted with timestamp
tick() + 1, and the clock is otherwise not advanced. -/
def zipRun {α β : Type} (clock : Nat) :
    List (CE α) → List (CE β) → ZipOutcome (CE (α × β))
  | x :: xs, y :: ys =>
    let t := max (max clock x.time) y.time
    zipConsOut ⟨t + 1, (x.data, y.data)⟩ (zipRun t xs ys)
  | [], [] => .clean []
  | _, _ => .mismatch []

/-- Repeat::run (repeat.rs lines 30 to 49) on a finite timestamped stream,
with the local clock made explicit: each dequeue advances the clock to at
least the element timestamp, then the element is enqueued repeats times, each
copy stamped tick() + 1; no clock advance separates the copies.  Input
closure is a clean exit, so the result is simply the emitted list. -/
def repeatRun {α : Type} (repeats : Nat) (clock : Nat) :
    List (CE α) → List (CE α)
  | [] => []
  | x :: xs =>
    let t := max clock x.time
    List.replicate repeats ⟨t + 1, x.data⟩ ++ repeatRun repeats t xs

/-- The accumulator threading of the vector-product Reduce window of
agnostic_attention, with the out-of-bounds panic of prodUpdate propagated:
none means the window either panicked on an index out of bounds or ended
with an empty accumulator. -/
def prodRun {F : Type} [LinearOrderedField F] :
    List (RunningResult F × List F) → Option (List F) → Option (List F)
  | [], acc => acc
  | (rr, v) :: rest, acc =>
    match prodUpdate rr v acc with
    | some newv => prodRun rest (some newv)
    | none => none

/-- The MAC closure passed to Matmul by naive.rs and by the matmul tests. -/
def macOp {F : Type} [Mul F] [Add F] (a b c : F) : F := a * b + c

/-- The inner K-loop of both Matmul behaviors: fold the MAC over one left
slice and one right slice (matmul.rs lines 81 to 106 and 138 to 162). -/
def dotMac {F : Type} (mac : F → F → F → F) : List F → List F → F → F
  | a :: as', b :: bs', acc => dotMac mac as' bs' (mac a b acc)
  | _, _, acc => acc

/-- One batch of buffered_matmul (matmul.rs lines 73 to 127): for each row m
the left stream supplies the K-element buffer once (while n = 0), and for
each (m, n) the right stream supplies the next K elements; outputs appear in
row-major order. -/
def bufferedMatmul {F : Type} [Zero F] (mac : F → F → F → F)
    (M N K : Nat) (left right : List F) : List F :=
  ((List.range M).map (fun m =>
    (List.range N).map (fun n =>
      dotMac mac ((left.drop (m * K)).take K)
        ((right.drop ((m * N + n) * K)).take K) 0))).flatten

/-- One batch of repeated_matmul (matmul.rs lines 128 to 180): both streams
are consumed one element per MAC step, so the left stream must carry each row
of A repeated N times. -/
def repeatedMatmul {F : Type} [Zero F] (mac : F → F → F → F)
    (M N K : Nat) (left right : List F) : List F :=
  ((List.range M).map (fun m =>
    (List.range N).map (fun n =>
      dotMac mac ((left.drop ((m * N + n) * K)).take K)
        ((right.drop ((m * N + n) * K)).take K) 0))).flatten

/-- The left stream layout of the Buffered behavior: A streamed row-major
once (matmul.rs test, GeneratorContext for Buffered). -/
def matmulLeftOnce {F : Type} (K : Nat) (A : Nat → Nat → F)
    (M : Nat) : List F :=
  (List.range (M * K)).map (fun i => A (i / K) (i % K))

/-- The left stream layout of the Repeated behavior: each row of A repeated
N times (matmul.rs test, GeneratorContext for Repeated). -/
def matmulLeftRepeated {F : Type} (N K : Nat) (A : Nat → Nat → F)
    (M : Nat) : List F :=
  (List.range (M * N * K)).map (fun i => A (i / (N * K)) (i % K))

/-- The right stream layout shared by both behaviors: B transposed, streamed
once per row of A (matmul.rs test, right GeneratorContext). -/
def matmulRight {F : Type} (N K : Nat) (B : Nat → Nat → F)
    (M : Nat) : List F :=
  (List.range (M * N * K)).map (fun i => B (i % K) ((i / K) % N))

/-- The M by N entries of the product A times B in row-major order, each
entry the K-term dot product.  This is the specification-side description of
Matmul correctness. -/
def matmulGold {F : Type} [Mul F] [AddCommMonoid F] (M N K : Nat)
    (A B : Nat → Nat → F) : List F :=
  ((List.range M).map (fun m =>
    (List.range N).map (fun n =>
      ((List.range K).map (fun k => A m k * B k n)).sum))).flatten

/-- Sum of the abstract exponential over a score row (the row denominator of
softmax before rescaling). -/
def sumExpS {F : Type} [LinearOrderedField F] (E : F → F)
    (scores : List F) : F :=
  (scores.map E).sum

/-- The i-th coordinate of the exp-weighted combination of the V rows of a
score row: the numerator of softmax attention for that coordinate. -/
def expWeight {F : Type} [LinearOrderedField F] (E : F → F)
    (scores : List F) (vrows : List (List F)) (i : Nat) : F :=
  ((scores.zip vrows).map (fun p => E p.1 * p.2.getD i 0)).sum

/-- The composed per-row computation of the agnostic pipeline
(apps/agnostic.rs): the Scan over the score row, the residual Reduce and the
vector-product Reduce over the scan results paired with the V rows, and the
final Flatmap dividing each accumulator coordinate by the residual.  The
result is none when a Reduce would panic. -/
def agnosticRowOut {F : Type} [LinearOrderedField F] (E : F → F)
    (scores : List F) (vrows : List (List F)) : Option (List F) :=
  let rrs := scanWindow (scanUpdate E) none scores
  match windowFold residualUpdate rrs none, prodRun (rrs.zip vrows) none with
  | some r, some o => some (o.map (fun x => x / r))
  | _, _ => none

/-- The composed per-row computation of the naive pipeline (apps/naive.rs):
Map of the exponential, row-sum Reduce, Repeat of the sum paired with the
exponential stream through the divide Map, and the Buffered Matmul row
against V streamed transposed. -/
def naiveRowOut {F : Type} [LinearOrderedField F] (E : F → F) (D : Nat)
    (scores : List F) (vrows : List (List F)) : Option (List F) :=
  let exps := scores.map E
  match windowFold addUpdate exps none with
  | none => none
  | some r =>
    some (bufferedMatmul macOp 1 D scores.length (exps.map (fun e => e / r))
      ((List.range (D * scores.length)).map (fun i =>
        (vrows.getD (i % scores.length) []).getD (i / scores.length) 0)))

/-- Unfolding lemma: one window step of the fold. -/
theorem windowFold_cons {α β : Type} (f : α → Option β → β) (x : α)
    (xs : List α) (acc : Option β) :
    windowFold f (x :: xs) acc = windowFold f xs (some (f x acc)) := rfl

/-- A fold that starts from a present accumulator stays present. -/
theorem windowFold_isSome {α β : Type} (f : α → Option β → β) :
    ∀ (xs : List α) (a : β), (windowFold f xs (some a)).isSome := by
  intro xs
  induction xs with
  | nil => intro a; rfl
  | cons x rest ih => intro a; rw [windowFold_cons]; exact ih (f x (some a))

/-- A fold over a nonempty window produces an accumulator. -/
theorem windowFold_ne_nil_some {α β : Type} (f : α → Option β → β)
    (xs : List α) (h : xs ≠ []) : ∃ out, windowFold f xs none = some out := by
  match xs with
  | [] => exact absurd rfl h
  | x :: rest =>
    rw [windowFold_cons]
    have := windowFold_isSome f rest (f x none)
    exact Option.isSome_iff_exists.mp this

/-- The Reduce model on window size zero: no dequeue happens and the unwrap
of the empty accumulator panics, whatever the stream holds. -/
theorem reduceRun_zero {α β : Type} (f : α → Option β → β) (xs : List α) :
    reduceRun 0 f xs = .unwrapPanic [] := by
  cases xs <;> simp [reduceRun]

/-- The Reduce model on an exhausted stream at a window boundary: clean. -/
theorem reduceRun_nil {α β : Type} (W : Nat) (f : α → Option β → β)
    (hW : W ≠ 0) : reduceRun W f ([] : List α) = .clean [] := by
  simp [reduceRun, hW]

/-- The Reduce model on a stream that dies mid-window: Premature End. -/
theorem reduceRun_short {α β : Type} (W : Nat) (f : α → Option β → β)
    (xs : List α) (hW : W ≠ 0) (hx : xs ≠ []) (h : xs.length < W) :
    reduceRun W f xs = .prematureEnd [] := by
  match xs with
  | [] => exact absurd rfl hx
  | x :: rest =>
    rw [reduceRun]
    simp only [hW, dite_false]
    rw [dif_pos h]

/-- The Reduce model on a full window: emit the fold and continue. -/
theorem reduceRun_step {α β : Type} (W : Nat) (f : α → Option β → β)
    (xs : List α) (hW : W ≠ 0) (h : W ≤ xs.length) (out : β)
    (hout : windowFold f (xs.take W) none = some out) :
    reduceRun W f xs = consOut out (reduceRun W f (xs.drop W)) := by
  match xs with
  | [] => simp at h; omega
  | x :: rest =>
    rw [reduceRun]
    simp only [hW, dite_false]
    rw [dif_neg (by omega), hout]

/-- Prepending an output leaves the outcome kind alone and conses the
output list. -/
theorem consOut_outputs {β : Type} (b : β) (o : ReduceOutcome β) :
    (consOut b o).outputs = b :: o.outputs := by
  cases o <;> rfl

/-- Fold of the addition update from a present accumulator: the sum. -/
theorem windowFold_add {β : Type} [AddCommMonoid β] :
    ∀ (l : List β) (a : β), windowFold addUpdate l (some a) = some (a + l.sum) := by
  intro l
  induction l with
  | nil => intro a; simp [windowFold]
  | cons x rest ih =>
    intro a
    rw [windowFold_cons, ih]
    simp [addUpdate, List.sum_cons]
    abel

/-- Fold of the addition update over a nonempty window: the window sum. -/
theorem windowFold_add_none {β : Type} [AddCommMonoid β] (l : List β)
    (h : l ≠ []) : windowFold addUpdate l none = some l.sum := by
  match l with
  | [] => exact absurd rfl h
  | x :: rest =>
    rw [windowFold_cons, windowFold_add]
    simp [addUpdate, List.sum_cons]

/-- The outputs of the Reduce model with the addition update: one window sum
per completed window, whatever the terminal behavior. -/
theorem reduceRun_outputs_sum {β : Type} [AddCommMonoid β] (W : Nat)
    (xs : List β) :
    (reduceRun W addUpdate xs).outputs
      = (List.range (xs.length / W)).map
          (fun i => ((xs.drop (i * W)).take W).sum) := by
  by_cases hW : W = 0
  · subst hW
    rw [reduceRun_zero]
    simp [ReduceOutcome.outputs]
  by_cases hx : xs = []
  · subst hx
    rw [reduceRun_nil _ _ hW]
    simp [ReduceOutcome.outputs]
  by_cases hlen : xs.length < W
  · rw [reduceRun_short _ _ _ hW hx hlen]
    simp [ReduceOutcome.outputs, Nat.div_eq_of_lt hlen]
  push_neg at hlen
  have htake : xs.take W ≠ [] := by
    intro hnil
    have h1 : (xs.take W).length = 0 := by rw [hnil]; rfl
    rw [List.length_take] at h1
    omega
  obtain ⟨out, hout⟩ := windowFold_ne_nil_some addUpdate (xs.take W) htake
  rw [reduceRun_step _ _ _ hW hlen out hout, consOut_outputs]
  rw [reduceRun_outputs_sum W (xs.drop W)]
  have hdiv : xs.length / W = (xs.length - W) / W + 1 :=
    Nat.div_eq_sub_div (by omega) hlen
  rw [List.length_drop, hdiv, List.range_succ_eq_map, List.map_cons,
    List.map_map]
  have hhead : out = ((xs.drop (0 * W)).take W).sum := by
    rw [windowFold_add_none _ htake] at hout
    simpa using (Option.some.inj hout).symm
  rw [← hhead]
  congr 1
  apply List.map_congr_left
  intro i _
  simp only [Function.comp_apply]
  have hidx : (i + 1) * W = W + i * W := by ring
  rw [List.drop_drop, Nat.succ_eq_add_one, hidx]
termination_by xs.length
decreasing_by
  simp only [List.length_drop]
  omega

/-- Prepending an output does not change whether the outcome is clean. -/
theorem consOut_isClean {β : Type} (b : β) (o : ReduceOutcome β) :
    (consOut b o).isClean = o.isClean := by
  cases o <;> rfl

/-- Prepending an output does not change whether the outcome panicked
mid-window. -/
theorem consOut_isPrematureEnd {β : Type} (b : β) (o : ReduceOutcome β) :
    (consOut b o).isPrematureEnd = o.isPrematureEnd := by
  cases o <;> rfl

/-- Prepending an output does not change whether the outcome panicked on the
accumulator unwrap. -/
theorem consOut_isUnwrapPanic {β : Type} (b : β) (o : ReduceOutcome β) :
    (consOut b o).isUnwrapPanic = o.isUnwrapPanic := by
  cases o <;> rfl

/-- With a positive window size, the Reduce model exits cleanly exactly when
the stream length is a multiple of the window, and panics mid-window exactly
otherwise. -/
theorem reduceRun_boundary {α β : Type} (W : Nat) (f : α → Option β → β)
    (hW : W ≠ 0) (xs : List α) :
    ((reduceRun W f xs).isClean = true ↔ W ∣ xs.length)
      ∧ ((reduceRun W f xs).isPrematureEnd = true ↔ ¬W ∣ xs.length) := by
  by_cases hx : xs = []
  · subst hx
    rw [reduceRun_nil _ _ hW]
    simp [ReduceOutcome.isClean, ReduceOutcome.isPrematureEnd]
  by_cases hlen : xs.length < W
  · rw [reduceRun_short _ _ _ hW hx hlen]
    have hnd : ¬W ∣ xs.length := by
      intro hdvd
      have hpos : 0 < xs.length := List.length_pos.mpr hx
      have := Nat.le_of_dvd hpos hdvd
      omega
    simp [ReduceOutcome.isClean, ReduceOutcome.isPrematureEnd, hnd]
  push_neg at hlen
  have htake : xs.take W ≠ [] := by
    intro hnil
    have h1 : (xs.take W).length = 0 := by rw [hnil]; rfl
    rw [List.length_take] at h1
    omega
  obtain ⟨out, hout⟩ := windowFold_ne_nil_some f (xs.take W) htake
  rw [reduceRun_step _ _ _ hW hlen out hout]
  rw [consOut_isClean, consOut_isPrematureEnd]
  obtain ⟨h1, h2⟩ := reduceRun_boundary W f hW (xs.drop W)
  have hdvd : W ∣ (xs.drop W).length ↔ W ∣ xs.length := by
    rw [List.length_drop]
    constructor
    · intro h
      have : xs.length = (xs.length - W) + W := by omega
      rw [this]
      exact Nat.dvd_add h dvd_rfl
    · intro h
      exact Nat.dvd_sub' h dvd_rfl
  rw [h1, h2, hdvd]
  exact ⟨Iff.rfl, Iff.rfl⟩
termination_by xs.length
decreasing_by
  simp only [List.length_drop]
  omega

/-- With a positive window size the accumulator unwrap never panics: every
emitted window folded at least one element. -/
theorem reduceRun_no_unwrap {α β : Type} (W : Nat) (f : α → Option β → β)
    (hW : W ≠ 0) (xs : List α) :
    (reduceRun W f xs).isUnwrapPanic = false := by
  by_cases hx : xs = []
  · subst hx
    rw [reduceRun_nil _ _ hW]
    rfl
  by_cases hlen : xs.length < W
  · rw [reduceRun_short _ _ _ hW hx hlen]
    rfl
  push_neg at hlen
  have htake : xs.take W ≠ [] := by
    intro hnil
    have h1 : (xs.take W).length = 0 := by rw [hnil]; rfl
    rw [List.length_take] at h1
    omega
  obtain ⟨out, hout⟩ := windowFold_ne_nil_some f (xs.take W) htake
  rw [reduceRun_step _ _ _ hW hlen out hout, consOut_isUnwrapPanic]
  exact reduceRun_no_unwrap W f hW (xs.drop W)
termination_by xs.length
decreasing_by
  simp only [List.length_drop]
  omega

/-- C3: for every finite input stream and every window size W, a Reduce with
the addition update emits exactly len / W outputs, the i-th output being the
sum of the i-th consecutive window of W inputs. -/
theorem reduce_add_emits_window_sums {β : Type} [AddCommMonoid β] (W : Nat)
    (xs : List β) :
    (reduceRun W addUpdate xs).outputs.length = xs.length / W
      ∧ (reduceRun W addUpdate xs).outputs
          = (List.range (xs.length / W)).map
              (fun i => ((xs.drop (i * W)).take W).sum) := by
  have h := reduceRun_outputs_sum W xs
  exact ⟨by rw [h]; simp, h⟩

/-- C5 (amended): a failed dequeue is a clean exit exactly when it occurs at
the first position of a window, that is, when the stream length is a multiple
of W; a failed dequeue at a non-first position within a window is fatal.  The
window need not be the first one. -/
theorem reduce_close_at_window_boundary {α β : Type} (W : Nat)
    (f : α → Option β → β) (hW : 1 ≤ W) (xs : List α) :
    ((reduceRun W f xs).isClean = true ↔ W ∣ xs.length)
      ∧ ((reduceRun W f xs).isPrematureEnd = true ↔ ¬W ∣ xs.length) :=
  reduceRun_boundary W f (by omega) xs

/-- Witness for the amended C5 statement at window 2 and a stream of three
elements: not a multiple, hence a mid-window fatal close. -/
theorem reduce_close_at_window_boundary_witness :
    1 ≤ 2
      ∧ (((reduceRun 2 addUpdate [(1 : Nat), 2, 3]).isClean = true
            ↔ 2 ∣ ([(1 : Nat), 2, 3]).length)
        ∧ ((reduceRun 2 addUpdate [(1 : Nat), 2, 3]).isPrematureEnd = true
            ↔ ¬2 ∣ ([(1 : Nat), 2, 3]).length)) :=
  ⟨by decide, reduce_close_at_window_boundary 2 addUpdate (by decide) [1, 2, 3]⟩

/-- C5 counterexample: with window size 1 and the one-element stream the
upstream closes at the first dequeue of the second window.  The claim as
stated says only a close in the very first window is clean and any later
window close is fatal, but Reduce::run exits cleanly here, with the first
window emitted and no Premature End panic. -/
theorem reduce_second_window_close_is_clean :
    reduceRun 1 addUpdate [(1 : Nat)] = ReduceOutcome.clean [1]
      ∧ (reduceRun 1 addUpdate [(1 : Nat)]).isPrematureEnd = false := by
  have h : reduceRun 1 addUpdate [(1 : Nat)] = ReduceOutcome.clean [1] := by
    rw [reduceRun_step 1 addUpdate [(1 : Nat)] (by decide) (by decide) 1 rfl]
    have hd : ([(1 : Nat)].drop 1) = [] := rfl
    rw [hd, reduceRun_nil 1 addUpdate (by decide)]
    rfl
  exact ⟨h, by rw [h]; rfl⟩

/-- C10: with reset_freq = 0 the Reduce run loop performs no dequeues (the
window fold ranges over an empty take), leaves the accumulator empty, and
panics unwrapping it before emitting anything, for every input stream; and
reset_freq ≥ 1 makes the accumulator-unwrap panic unreachable. -/
theorem reduce_zero_reset_freq_unwrap {α β : Type} (f : α → Option β → β) :
    (∀ xs : List α,
        windowFold f (xs.take 0) none = none
          ∧ reduceRun 0 f xs = ReduceOutcome.unwrapPanic [])
      ∧ ∀ W : Nat, 1 ≤ W → ∀ xs : List α,
          (reduceRun W f xs).isUnwrapPanic = false := by
  constructor
  · intro xs
    exact ⟨rfl, reduceRun_zero f xs⟩
  · intro W hW xs
    exact reduceRun_no_unwrap W f (by omega) xs

/-- Witness for C10 on a nonempty concrete stream. -/
theorem reduce_zero_reset_freq_unwrap_witness :
    (windowFold addUpdate ([(1 : Nat), 2].take 0) none = none
        ∧ reduceRun 0 addUpdate [(1 : Nat), 2] = ReduceOutcome.unwrapPanic [])
      ∧ (1 ≤ 1
        ∧ (reduceRun 1 addUpdate [(5 : Nat)]).isUnwrapPanic = false) :=
  ⟨(reduce_zero_reset_freq_unwrap addUpdate).1 [1, 2],
    by decide,
    (reduce_zero_reset_freq_unwrap addUpdate).2 1 (by decide) [5]⟩

/-- Scan window outputs for the addition update, from a present accumulator:
running sums of the window shifted by the accumulator. -/
theorem scanWindow_add_some {β : Type} [AddCommMonoid β] :
    ∀ (l : List β) (a : β),
      scanWindow addUpdate (some a) l
        = (List.range l.length).map (fun j => a + (l.take (j + 1)).sum) := by
  intro l
  induction l with
  | nil => intro a; simp [scanWindow]
  | cons x rest ih =>
    intro a
    show (addUpdate x (some a))
        :: scanWindow addUpdate (some (addUpdate x (some a))) rest = _
    have hadd : addUpdate x (some a) = x + a := rfl
    rw [hadd, ih (x + a), List.length_cons, List.range_succ_eq_map,
      List.map_cons, List.map_map]
    congr 1
    · simp [List.sum_cons]
      abel
    · apply List.map_congr_left
      intro j _
      simp only [Function.comp_apply, Nat.succ_eq_add_one, List.take_succ_cons,
        List.sum_cons]
      abel

/-- Scan window outputs for the addition update, from the empty accumulator:
the running sums of the window. -/
theorem scanWindow_add_none {β : Type} [AddCommMonoid β] (l : List β) :
    scanWindow addUpdate none l
      = (List.range l.length).map (fun j => (l.take (j + 1)).sum) := by
  match l with
  | [] => simp [scanWindow]
  | x :: rest =>
    show (addUpdate x none) :: scanWindow addUpdate (some (addUpdate x none)) rest = _
    have hadd : addUpdate x (none : Option β) = x := rfl
    rw [hadd, scanWindow_add_some rest x, List.length_cons,
      List.range_succ_eq_map, List.map_cons, List.map_map]
    congr 1
    simp

/-- The Scan model on an exhausted stream at a window boundary: clean. -/
theorem scanRun_nil {α β : Type} (W : Nat) (f : α → Option β → β)
    (hW : W ≠ 0) : scanRun W f ([] : List α) = .clean [] := by
  simp [scanRun, hW]

/-- The Scan model on a full window whose continuation is clean: emit the
window outputs and continue. -/
theorem scanRun_step {α β : Type} (W : Nat) (f : α → Option β → β)
    (xs : List α) (hW : W ≠ 0) (h : W ≤ xs.length) (outs : List β)
    (hrec : scanRun W f (xs.drop W) = .clean outs) :
    scanRun W f xs = .clean (scanWindow f none (xs.take W) ++ outs) := by
  match xs with
  | [] => simp at h; omega
  | x :: rest =>
    rw [scanRun]
    simp only [hW, dite_false]
    rw [dif_neg (by omega), hrec]

/-- C4: over a stream whose length is a multiple of the window size W ≥ 1,
Scan with the addition update emits one output per input and exits cleanly,
the i-th output being the running sum of window i / W up to position i % W. -/
theorem scan_add_running_sums {β : Type} [AddCommMonoid β] (W : Nat)
    (xs : List β) (hW : 1 ≤ W) (hdvd : W ∣ xs.length) :
    scanRun W addUpdate xs
      = ScanOutcome.clean ((List.range xs.length).map
          (fun i => ((xs.drop (W * (i / W))).take (i % W + 1)).sum)) := by
  by_cases hx : xs = []
  · subst hx
    rw [scanRun_nil _ _ (by omega)]
    simp
  have hpos : 0 < xs.length := List.length_pos.mpr hx
  have hlen : W ≤ xs.length := Nat.le_of_dvd hpos hdvd
  have hdvd' : W ∣ (xs.drop W).length := by
    rw [List.length_drop]
    exact Nat.dvd_sub' hdvd dvd_rfl
  have hrec := scan_add_running_sums W (xs.drop W) hW hdvd'
  rw [scanRun_step W addUpdate xs (by omega) hlen _ hrec]
  congr 1
  rw [scanWindow_add_none, List.length_take, List.length_drop]
  have hmin : min W xs.length = W := by omega
  rw [hmin]
  have hsplit : xs.length = W + (xs.length - W) := by omega
  conv_rhs => rw [hsplit]
  rw [List.range_add, List.map_append, List.map_map]
  congr 1
  · apply List.map_congr_left
    intro j hj
    rw [List.mem_range] at hj
    rw [List.take_take]
    have h1 : min (j + 1) W = j + 1 := by omega
    have h2 : j / W = 0 := Nat.div_eq_of_lt hj
    have h3 : j % W = j := Nat.mod_eq_of_lt hj
    rw [h1, h2, h3, Nat.mul_zero, List.drop_zero]
  · apply List.map_congr_left
    intro j _
    simp only [Function.comp_apply]
    have e1 : (W + j) / W = j / W + 1 := by
      rw [Nat.add_comm W j]
      exact Nat.add_div_right j (by omega)
    have e2 : (W + j) % W = j % W := by
      rw [Nat.add_comm W j]
      exact Nat.add_mod_right j W
    rw [e1, e2, List.drop_drop]
    have e3 : W + W * (j / W) = W * (j / W + 1) := by ring
    rw [e3]
termination_by xs.length
decreasing_by
  simp only [List.length_drop]
  omega

/-- Witness for C4: window 2 over the stream 1, 2, 3, 4 gives the running
sums 1, 3 then 3, 7 and a clean exit. -/
theorem scan_add_running_sums_witness :
    1 ≤ 2 ∧ 2 ∣ ([(1 : Nat), 2, 3, 4]).length
      ∧ scanRun 2 addUpdate [(1 : Nat), 2, 3, 4]
          = ScanOutcome.clean [1, 3, 3, 7] := by
  refine ⟨by decide, by decide, ?_⟩
  rw [scan_add_running_sums 2 [(1 : Nat), 2, 3, 4] (by decide) (by decide)]
  rfl

/-- Prepending a Zip output conses the output list. -/
theorem zipConsOut_outputs {γ : Type} (g : γ) (o : ZipOutcome γ) :
    (zipConsOut g o).outputs = g :: o.outputs := by
  cases o <;> rfl

/-- Prepending a Zip output does not change whether the run is clean. -/
theorem zipConsOut_isClean {γ : Type} (g : γ) (o : ZipOutcome γ) :
    (zipConsOut g o).isClean = o.isClean := by
  cases o <;> rfl

/-- A max fold absorbs an extra seed component. -/
theorem foldl_max_swap :
    ∀ (l : List Nat) (c d : Nat),
      List.foldl max (max c d) l = max (List.foldl max c l) d := by
  intro l
  induction l with
  | nil => intro c d; rfl
  | cons a l ih =>
    intro c d
    simp only [List.foldl_cons]
    have h : max (max c d) a = max (max c a) d := by omega
    rw [h, ih]

/-- Pulling the heads of both prefix lists out of the max fold. -/
theorem foldl_max_cons_append (c xt yt : Nat) (A B : List Nat) :
    List.foldl max c ((xt :: A) ++ (yt :: B))
      = List.foldl max (max (max c xt) yt) (A ++ B) := by
  simp only [List.cons_append, List.foldl_cons, List.foldl_append]
  congr 1
  exact (foldl_max_swap A (max c xt) yt).symm

/-- C6: while both inputs yield elements Zip emits their pair one cycle after
the clock value reached by the two dequeues (which is the running max of the
seed clock and all element timestamps dequeued so far); it exits cleanly
exactly when both streams close in the same iteration, that is, when the two
streams have equal length, and panics otherwise. -/
theorem zip_lockstep {α β : Type} :
    ∀ (xs : List (CE α)) (ys : List (CE β)) (clock : Nat),
      ((zipRun clock xs ys).isClean = true ↔ xs.length = ys.length)
        ∧ (zipRun clock xs ys).outputs.length = min xs.length ys.length
        ∧ ∀ (k : Nat) (x : CE α) (y : CE β), xs[k]? = some x → ys[k]? = some y →
            (zipRun clock xs ys).outputs[k]?
              = some ⟨((xs.take (k + 1)).map CE.time
                    ++ (ys.take (k + 1)).map CE.time).foldl max clock + 1,
                  (x.data, y.data)⟩ := by
  intro xs
  induction xs with
  | nil =>
    intro ys clock
    cases ys with
    | nil =>
      refine ⟨?_, ?_, ?_⟩
      · simp [zipRun, ZipOutcome.isClean]
      · simp [zipRun, ZipOutcome.outputs]
      · intro k x y hx hy
        simp at hx
    | cons y ys' =>
      refine ⟨?_, ?_, ?_⟩
      · simp [zipRun, ZipOutcome.isClean]
      · simp [zipRun, ZipOutcome.outputs]
      · intro k x y hx hy
        simp at hx
  | cons x xs' ih =>
    intro ys clock
    cases ys with
    | nil =>
      refine ⟨?_, ?_, ?_⟩
      · simp [zipRun, ZipOutcome.isClean]
      · simp [zipRun, ZipOutcome.outputs]
      · intro k xx yy hx hy
        simp at hy
    | cons y ys' =>
      have hz : zipRun clock (x :: xs') (y :: ys')
          = zipConsOut ⟨max (max clock x.time) y.time + 1, (x.data, y.data)⟩
              (zipRun (max (max clock x.time) y.time) xs' ys') := rfl
      obtain ⟨ih1, ih2, ih3⟩ := ih ys' (max (max clock x.time) y.time)
      refine ⟨?_, ?_, ?_⟩
      · rw [hz, zipConsOut_isClean, ih1]
        simp only [List.length_cons]
        omega
      · rw [hz, zipConsOut_outputs]
        simp only [List.length_cons, ih2]
        omega
      · intro k xx yy hx hy
        cases k with
        | zero =>
          simp only [List.getElem?_cons_zero, Option.some.injEq] at hx hy
          subst hx
          subst hy
          rw [hz, zipConsOut_outputs]
          simp [List.take_succ_cons, List.foldl_cons]
        | succ k =>
          rw [hz, zipConsOut_outputs]
          simp only [List.getElem?_cons_succ] at hx hy ⊢
          rw [ih3 k xx yy hx hy]
          have ht : ((x :: xs').take (k + 1 + 1)).map CE.time
                ++ ((y :: ys').take (k + 1 + 1)).map CE.time
              = (x.time :: (xs'.take (k + 1)).map CE.time)
                ++ (y.time :: (ys'.take (k + 1)).map CE.time) := by
            simp [List.take_succ_cons]
          rw [ht, foldl_max_cons_append]

/-- Witness for C6 at singleton streams with timestamps 2 and 5: the pair is
emitted at time 6 and the run is clean. -/
theorem zip_lockstep_witness :
    (([⟨2, (1 : Int)⟩] : List (CE Int))[0]? = some ⟨2, 1⟩)
      ∧ (([⟨5, (4 : Int)⟩] : List (CE Int))[0]? = some ⟨5, 4⟩)
      ∧ ((zipRun 0 ([⟨2, (1 : Int)⟩] : List (CE Int))
            ([⟨5, (4 : Int)⟩] : List (CE Int))).isClean = true
          ↔ ([⟨2, (1 : Int)⟩] : List (CE Int)).length
              = ([⟨5, (4 : Int)⟩] : List (CE Int)).length)
      ∧ (zipRun 0 ([⟨2, (1 : Int)⟩] : List (CE Int))
            ([⟨5, (4 : Int)⟩] : List (CE Int))).outputs[0]?
          = some ⟨((([⟨2, (1 : Int)⟩] : List (CE Int)).take 1).map CE.time
                ++ (([⟨5, (4 : Int)⟩] : List (CE Int)).take 1).map CE.time).foldl
                  max 0 + 1, ((1 : Int), (4 : Int))⟩ :=
  ⟨rfl, rfl,
    (zip_lockstep [⟨2, (1 : Int)⟩] [⟨5, (4 : Int)⟩] 0).1,
    (zip_lockstep [⟨2, (1 : Int)⟩] [⟨5, (4 : Int)⟩] 0).2.2 0 ⟨2, 1⟩ ⟨5, 4⟩ rfl rfl⟩

/-- C7 (amended): each received element is re-emitted exactly repeats times
on the output (the run emits repeats times the stream length, the k-th
element occupying positions k * repeats to k * repeats + repeats - 1), and
every one of the repeats copies carries the same timestamp, one cycle past
the clock value reached by the dequeues so far; the run always drains the
whole stream and exits cleanly on closure.  The clock does not advance
between the copies of one element, so consecutive copies are NOT one cycle
apart. -/
theorem repeat_emits_equal_stamped_copies {α : Type} :
    ∀ (xs : List (CE α)) (repeats clock : Nat),
      (repeatRun repeats clock xs).length = xs.length * repeats
        ∧ ∀ (k : Nat) (x : CE α), xs[k]? = some x → ∀ j, j < repeats →
            (repeatRun repeats clock xs)[k * repeats + j]?
              = some ⟨((xs.take (k + 1)).map CE.time).foldl max clock + 1,
                  x.data⟩ := by
  intro xs
  induction xs with
  | nil =>
    intro repeats clock
    refine ⟨by simp [repeatRun], ?_⟩
    intro k x hx
    simp at hx
  | cons x xs' ih =>
    intro repeats clock
    have hr : repeatRun repeats clock (x :: xs')
        = List.replicate repeats ⟨max clock x.time + 1, x.data⟩
            ++ repeatRun repeats (max clock x.time) xs' := rfl
    obtain ⟨ih1, ih2⟩ := ih repeats (max clock x.time)
    constructor
    · rw [hr, List.length_append, List.length_replicate, ih1,
        List.length_cons]
      ring
    · intro k xx hx j hj
      cases k with
      | zero =>
        simp only [List.getElem?_cons_zero, Option.some.injEq] at hx
        subst hx
        rw [hr]
        rw [List.getElem?_append_left
          (by rw [List.length_replicate]; omega)]
        rw [List.getElem?_replicate]
        simp [hj, List.take_succ_cons, List.foldl_cons]
      | succ k =>
        simp only [List.getElem?_cons_succ] at hx
        rw [hr]
        have hidx : (k + 1) * repeats + j
            = repeats + (k * repeats + j) := by ring
        rw [hidx, List.getElem?_append_right
          (by rw [List.length_replicate]; omega)]
        rw [List.length_replicate]
        have hsub : repeats + (k * repeats + j) - repeats
            = k * repeats + j := by omega
        rw [hsub, ih2 k xx hx j hj]
        simp [List.take_succ_cons, List.foldl_cons]

/-- Witness for the amended C7: a two-element stream with repeats 2. -/
theorem repeat_emits_equal_stamped_copies_witness :
    (repeatRun 2 0 ([⟨3, (7 : Int)⟩, ⟨4, (9 : Int)⟩] : List (CE Int))).length
        = ([⟨3, (7 : Int)⟩, ⟨4, (9 : Int)⟩] : List (CE Int)).length * 2
      ∧ (repeatRun 2 0 ([⟨3, (7 : Int)⟩, ⟨4, (9 : Int)⟩] : List (CE Int)))[1 * 2 + 1]?
          = some ⟨((([⟨3, (7 : Int)⟩, ⟨4, (9 : Int)⟩] : List (CE Int)).take 2).map
                CE.time).foldl max 0 + 1, (9 : Int)⟩ :=
  ⟨(repeat_emits_equal_stamped_copies [⟨3, 7⟩, ⟨4, 9⟩] 2 0).1,
    (repeat_emits_equal_stamped_copies [⟨3, 7⟩, ⟨4, 9⟩] 2 0).2 1 ⟨4, 9⟩ rfl 1
      (by decide)⟩

/-- C7 counterexample: the claim as stated says the k-th copy of an element
is stamped one cycle later than the previous copy.  With repeats 2 and one
input at time 0 the two copies are both stamped 1: the second copy is not
one cycle after the first. -/
theorem repeat_second_copy_not_one_later :
    repeatRun 2 0 ([⟨0, (0 : Int)⟩] : List (CE Int)) = [⟨1, 0⟩, ⟨1, 0⟩]
      ∧ ((repeatRun 2 0 ([⟨0, (0 : Int)⟩] : List (CE Int))).map CE.time)[1]?
          ≠ (((repeatRun 2 0 ([⟨0, (0 : Int)⟩] : List (CE Int))).map
              CE.time)[0]?).map (· + 1) := by
  refine ⟨rfl, ?_⟩
  decide

/-- Every RunningResult produced by the Scan update from a present previous
state has delta_elem equal to E applied to delta_max, and delta_max at most
zero (the old maximum minus the not-smaller new maximum). -/
theorem scanWindow_some_rr_props {F : Type} [LinearOrderedField F]
    (E : F → F) :
    ∀ (scores : List F) (rr0 rr : RunningResult F),
      rr ∈ scanWindow (scanUpdate E) (some rr0) scores →
        rr.delta_elem = E rr.delta_max ∧ rr.delta_max ≤ 0 := by
  intro scores
  induction scores with
  | nil =>
    intro rr0 rr h
    simp [scanWindow] at h
  | cons s rest ih =>
    intro rr0 rr h
    have hs : scanWindow (scanUpdate E) (some rr0) (s :: rest)
        = (scanUpdate E s (some rr0))
          :: scanWindow (scanUpdate E) (some (scanUpdate E s (some rr0)))
              rest := rfl
    rw [hs, List.mem_cons] at h
    rcases h with h | h
    · subst h
      refine ⟨rfl, ?_⟩
      show rr0.cur_max - max s rr0.cur_max ≤ 0
      have := le_max_right s rr0.cur_max
      linarith
    · exact ih (scanUpdate E s (some rr0)) rr h

/-- C8 (amended): every RunningResult emitted by the agnostic Scan satisfies
delta_elem = E delta_max, and every RunningResult other than the one for the
first score of the window satisfies delta_max ≤ 0.  For the first score the
code sets delta_max to the score itself, which need not be nonpositive; see
the counterexample. -/
theorem scan_rr_delta_props {F : Type} [LinearOrderedField F] (E : F → F)
    (scores : List F) :
    (∀ rr ∈ scanWindow (scanUpdate E) none scores,
        rr.delta_elem = E rr.delta_max)
      ∧ ∀ (i : Nat) (rr : RunningResult F),
          (scanWindow (scanUpdate E) none scores)[i]? = some rr → 1 ≤ i →
            rr.delta_max ≤ 0 := by
  cases scores with
  | nil =>
    constructor
    · intro rr h
      simp [scanWindow] at h
    · intro i rr h hi
      simp [scanWindow] at h
  | cons s rest =>
    have hs : scanWindow (scanUpdate E) none (s :: rest)
        = (scanUpdate E s none)
          :: scanWindow (scanUpdate E) (some (scanUpdate E s none)) rest := rfl
    constructor
    · intro rr h
      rw [hs, List.mem_cons] at h
      rcases h with h | h
      · subst h
        rfl
      · exact (scanWindow_some_rr_props E rest _ rr h).1
    · intro i rr h hi
      match i, hi with
      | i + 1, _ =>
        rw [hs] at h
        simp only [List.getElem?_cons_succ] at h
        have hmem : rr ∈ scanWindow (scanUpdate E)
            (some (scanUpdate E s none)) rest := by
          exact List.getElem?_mem h
        exact (scanWindow_some_rr_props E rest _ rr hmem).2

/-- Witness for the amended C8 at the score row 1, 2 over the rationals with
the identity standing in for the exponential: the second RunningResult has
delta_max equal to minus one, which is nonpositive. -/
theorem scan_rr_delta_props_witness :
    ((scanWindow (scanUpdate (fun x : ℚ => x)) none [1, 2])[1]?
        = some ⟨2, -1, 0, -1⟩)
      ∧ 1 ≤ 1
      ∧ ((⟨2, -1, 0, -1⟩ : RunningResult ℚ).delta_max ≤ 0) :=
  ⟨by simp [scanWindow, scanUpdate]; norm_num, by decide,
    (scan_rr_delta_props (fun x : ℚ => x) [1, 2]).2 1 ⟨2, -1, 0, -1⟩
      (by simp [scanWindow, scanUpdate]; norm_num) (by decide)⟩

/-- C8 counterexample: the RunningResult produced for the first score of a
window carries delta_max equal to the score itself (apps/agnostic.rs, None
arm of the Scan closure).  On the score row consisting of the single score 1
the produced delta_max is 1, which is positive, refuting the claim that every
RunningResult satisfies delta_max ≤ 0. -/
theorem scan_first_delta_max_positive :
    (scanWindow (scanUpdate (fun x : ℚ => x)) none [1]).map
        RunningResult.delta_max = [1]
      ∧ ¬((1 : ℚ) ≤ 0) := by
  refine ⟨by simp [scanWindow, scanUpdate], by norm_num⟩

/-- The V-row fold is list append: pushing each scalar onto the accumulator
rebuilds the window itself. -/
theorem windowFold_vRow {F : Type} :
    ∀ (l acc : List F), windowFold vRowUpdate l (some acc) = some (acc ++ l) := by
  intro l
  induction l with
  | nil => intro acc; simp [windowFold]
  | cons x rest ih =>
    intro acc
    rw [windowFold_cons]
    show windowFold vRowUpdate rest (some (acc ++ [x])) = _
    rw [ih (acc ++ [x])]
    simp

/-- The V-row fold over a nonempty window from the empty accumulator yields
the window itself. -/
theorem windowFold_vRow_none {F : Type} (l : List F) (h : l ≠ []) :
    windowFold vRowUpdate l none = some l := by
  match l with
  | [] => exact absurd rfl h
  | x :: rest =>
    rw [windowFold_cons]
    show windowFold vRowUpdate rest (some [x]) = _
    rw [windowFold_vRow rest [x]]
    rfl

/-- Every output of the V-row Reduce has length exactly the window size. -/
theorem reduceRun_vRow_lengths {F : Type} (D : Nat) (xs : List F) :
    ∀ v ∈ (reduceRun D vRowUpdate xs).outputs, v.length = D := by
  by_cases hW : D = 0
  · subst hW
    rw [reduceRun_zero]
    intro v hv
    simp [ReduceOutcome.outputs] at hv
  by_cases hx : xs = []
  · subst hx
    rw [reduceRun_nil _ _ hW]
    intro v hv
    simp [ReduceOutcome.outputs] at hv
  by_cases hlen : xs.length < D
  · rw [reduceRun_short _ _ _ hW hx hlen]
    intro v hv
    simp [ReduceOutcome.outputs] at hv
  push_neg at hlen
  have htake : xs.take D ≠ [] := by
    intro hnil
    have h1 : (xs.take D).length = 0 := by rw [hnil]; rfl
    rw [List.length_take] at h1
    omega
  rw [reduceRun_step _ _ _ hW hlen (xs.take D)
    (windowFold_vRow_none (xs.take D) htake), consOut_outputs]
  intro v hv
  rcases List.mem_cons.mp hv with hv | hv
  · subst hv
    rw [List.length_take]
    omega
  · exact reduceRun_vRow_lengths D (xs.drop D) v hv
termination_by xs.length
decreasing_by
  simp only [List.length_drop]
  omega

/-- Threading the vector-product update through a window whose rows all have
length D keeps the accumulator at length D and never trips the
out-of-bounds panic. -/
theorem prodRun_some_of_rows {F : Type} [LinearOrderedField F] (D : Nat) :
    ∀ (ps : List (RunningResult F × List F)) (o : List F),
      o.length = D → (∀ p ∈ ps, p.2.length = D) →
        ∃ o', prodRun ps (some o) = some o' ∧ o'.length = D := by
  intro ps
  induction ps with
  | nil =>
    intro o ho _
    exact ⟨o, rfl, ho⟩
  | cons p rest ih =>
    intro o ho hrows
    obtain ⟨rr, v⟩ := p
    have hv : v.length = D := hrows (rr, v) (List.mem_cons_self _ _)
    have hup : prodUpdate rr v (some o)
        = some (List.zipWith (fun a vi => a * rr.delta_elem + rr.exp * vi) o v) := by
      simp [prodUpdate, ho, hv]
    have hlen : (List.zipWith (fun a vi => a * rr.delta_elem + rr.exp * vi)
        o v).length = D := by
      rw [List.length_zipWith]
      omega
    have hstep : prodRun ((rr, v) :: rest) (some o)
        = prodRun rest
            (some (List.zipWith (fun a vi => a * rr.delta_elem + rr.exp * vi)
              o v)) := by
      show (match prodUpdate rr v (some o) with
        | some newv => prodRun rest (some newv)
        | none => none) = _
      rw [hup]
    rw [hstep]
    exact ih _ hlen (fun p hp => hrows p (List.mem_cons_of_mem _ hp))

/-- C9: every Vector emitted by the V-row-building Reduce with window D has
length exactly D, and the vector-product Reduce over scan results zipped with
such rows never indexes out of bounds: its accumulator exists and keeps
length D throughout. -/
theorem vrow_lengths_and_prod_in_bounds {F : Type} [LinearOrderedField F]
    (D : Nat) :
    (∀ (vstream : List F) (v : List F),
        v ∈ (reduceRun D vRowUpdate vstream).outputs → v.length = D)
      ∧ ∀ (rrs : List (RunningResult F)) (vrows : List (List F)),
          vrows ≠ [] → rrs.length = vrows.length →
            (∀ v ∈ vrows, v.length = D) →
              ∃ o, prodRun (rrs.zip vrows) none = some o ∧ o.length = D := by
  constructor
  · intro vstream v hv
    exact reduceRun_vRow_lengths D vstream v hv
  · intro rrs vrows hne hlen hrows
    match vrows, rrs, hlen with
    | v :: vrows', rr :: rrs', _ =>
      have hv : v.length = D := hrows v (List.mem_cons_self _ _)
      have hzip : (rr :: rrs').zip (v :: vrows')
          = (rr, v) :: rrs'.zip vrows' := rfl
      have hup : prodUpdate rr v none = some (v.map (fun x => x * rr.exp)) := rfl
      have hstep : prodRun ((rr, v) :: rrs'.zip vrows') none
          = prodRun (rrs'.zip vrows') (some (v.map (fun x => x * rr.exp))) := by
        show (match prodUpdate rr v none with
          | some newv => prodRun (rrs'.zip vrows') (some newv)
          | none => none) = _
        rw [hup]
      rw [hzip, hstep]
      refine prodRun_some_of_rows D (rrs'.zip vrows') _ (by simp [hv]) ?_
      intro p hp
      exact hrows p.2 (List.mem_cons_of_mem _ (List.of_mem_zip hp).2)
    | [], _, _ => exact absurd rfl hne

/-- Witness for C9: window 2, the V stream 1, 2 builds the row 1, 2 of
length 2, and a one-step vector product over a length-2 row stays length 2. -/
theorem vrow_lengths_and_prod_in_bounds_witness :
    (([(1 : ℚ), 2] : List ℚ) ∈ (reduceRun 2 vRowUpdate [(1 : ℚ), 2]).outputs
        ∧ ([(1 : ℚ), 2] : List ℚ).length = 2)
      ∧ ∃ o, prodRun (([⟨1, 1, 1, 1⟩] : List (RunningResult ℚ)).zip
            [[(5 : ℚ), 6]]) none = some o ∧ o.length = 2 := by
  have hrun : reduceRun 2 vRowUpdate [(1 : ℚ), 2]
      = ReduceOutcome.clean [[1, 2]] := by
    rw [reduceRun_step 2 vRowUpdate [(1 : ℚ), 2] (by decide) (by decide)
      [1, 2] (by rfl)]
    have hd : (([(1 : ℚ), 2] : List ℚ).drop 2) = [] := rfl
    rw [hd, reduceRun_nil 2 vRowUpdate (by decide)]
    rfl
  have hmem : ([(1 : ℚ), 2] : List ℚ)
      ∈ (reduceRun 2 vRowUpdate [(1 : ℚ), 2]).outputs := by
    rw [hrun]
    simp [ReduceOutcome.outputs]
  refine ⟨⟨hmem, (vrow_lengths_and_prod_in_bounds 2).1 [(1 : ℚ), 2] _ hmem⟩, ?_⟩
  refine (vrow_lengths_and_prod_in_bounds 2).2 [⟨1, 1, 1, 1⟩] [[(5 : ℚ), 6]]
    (by simp) rfl ?_
  intro v hv
  simp at hv
  subst hv
  rfl

/-- A contiguous slice of a stream generated positionally is itself generated
positionally from the offset. -/
theorem slice_range_map {F : Type} (f : Nat → F) (T a k : Nat)
    (h : a + k ≤ T) :
    (((List.range T).map f).drop a).take k
      = (List.range k).map (fun j => f (a + j)) := by
  apply List.ext_getElem
  · simp only [List.length_take, List.length_drop, List.length_map,
      List.length_range]
    omega
  · intro i h1 h2
    simp only [List.getElem_take, List.getElem_drop, List.getElem_map,
      List.getElem_range]

/-- Zipping two maps over one index list is the map of the pointwise
combination. -/
theorem zipWith_map_same {α β γ δ : Type} (f : β → γ → δ) (g : α → β)
    (h : α → γ) :
    ∀ l : List α, List.zipWith f (l.map g) (l.map h)
      = l.map (fun x => f (g x) (h x)) := by
  intro l
  induction l with
  | nil => rfl
  | cons x t ih => simp [ih]

/-- The MAC fold of matmul is the accumulator plus the pointwise product
sum. -/
theorem dotMac_macOp_sum {F : Type} [CommRing F] :
    ∀ (as bs : List F) (acc : F), as.length = bs.length →
      dotMac macOp as bs acc
        = acc + (List.zipWith (fun a b => a * b) as bs).sum := by
  intro as
  induction as with
  | nil =>
    intro bs acc _
    simp [dotMac]
  | cons a as' ih =>
    intro bs acc h
    cases bs with
    | nil => simp at h
    | cons b bs' =>
      show dotMac macOp as' bs' (macOp a b acc) = _
      rw [ih bs' _ (by simpa using h)]
      simp only [macOp, List.zipWith_cons_cons, List.sum_cons]
      ring

/-- The K elements of the buffered left stream consumed for row m are row m
of A. -/
theorem leftOnce_slice {F : Type} (A : Nat → Nat → F) (M K m : Nat)
    (hm : m < M) :
    ((matmulLeftOnce K A M).drop (m * K)).take K
      = (List.range K).map (fun k => A m k) := by
  show (((List.range (M * K)).map
      (fun i => A (i / K) (i % K))).drop (m * K)).take K = _
  rw [slice_range_map _ (M * K) (m * K) K (by
    have h1 : (m + 1) * K ≤ M * K := Nat.mul_le_mul_right K (by omega)
    have h2 : m * K + K = (m + 1) * K := by ring
    omega)]
  apply List.map_congr_left
  intro j hj
  rw [List.mem_range] at hj
  have hK : 0 < K := by omega
  have e1 : m * K + j = K * m + j := by ring
  rw [e1, Nat.mul_add_div hK, Nat.mul_add_mod, Nat.div_eq_of_lt hj,
    Nat.mod_eq_of_lt hj, Nat.add_zero]

/-- The K elements of the shared right stream consumed at step (m, n) are
column n of B. -/
theorem right_slice {F : Type} (B : Nat → Nat → F) (M N K m n : Nat)
    (hm : m < M) (hn : n < N) :
    ((matmulRight N K B M).drop ((m * N + n) * K)).take K
      = (List.range K).map (fun k => B k n) := by
  show (((List.range (M * N * K)).map
      (fun i => B (i % K) ((i / K) % N))).drop ((m * N + n) * K)).take K = _
  rw [slice_range_map _ (M * N * K) ((m * N + n) * K) K (by
    have h1 : m * N + n + 1 ≤ M * N := by
      have h2 : m * N + n + 1 ≤ (m + 1) * N := by
        have : (m + 1) * N = m * N + N := by ring
        omega
      have h3 : (m + 1) * N ≤ M * N := Nat.mul_le_mul_right N (by omega)
      omega
    have h4 : (m * N + n) * K + K = (m * N + n + 1) * K := by ring
    have h5 : (m * N + n + 1) * K ≤ M * N * K := by
      have := Nat.mul_le_mul_right K h1
      have e : M * N * K = (M * N) * K := by ring
      omega
    omega)]
  apply List.map_congr_left
  intro j hj
  rw [List.mem_range] at hj
  have hK : 0 < K := by omega
  have e1 : (m * N + n) * K + j = K * (m * N + n) + j := by ring
  rw [e1, Nat.mul_add_mod, Nat.mul_add_div hK, Nat.mod_eq_of_lt hj,
    Nat.div_eq_of_lt hj, Nat.add_zero]
  have e2 : m * N + n = N * m + n := by ring
  rw [e2, Nat.mul_add_mod, Nat.mod_eq_of_lt hn]

/-- The K elements of the repeated left stream consumed at step (m, n) are
row m of A, whatever n is. -/
theorem leftRepeated_slice {F : Type} (A : Nat → Nat → F) (M N K m n : Nat)
    (hm : m < M) (hn : n < N) :
    ((matmulLeftRepeated N K A M).drop ((m * N + n) * K)).take K
      = (List.range K).map (fun k => A m k) := by
  show (((List.range (M * N * K)).map
      (fun i => A (i / (N * K)) (i % K))).drop ((m * N + n) * K)).take K = _
  rw [slice_range_map _ (M * N * K) ((m * N + n) * K) K (by
    have h1 : m * N + n + 1 ≤ M * N := by
      have h2 : m * N + n + 1 ≤ (m + 1) * N := by
        have : (m + 1) * N = m * N + N := by ring
        omega
      have h3 : (m + 1) * N ≤ M * N := Nat.mul_le_mul_right N (by omega)
      omega
    have h4 : (m * N + n) * K + K = (m * N + n + 1) * K := by ring
    have h5 : (m * N + n + 1) * K ≤ M * N * K := by
      have := Nat.mul_le_mul_right K h1
      have e : M * N * K = (M * N) * K := by ring
      omega
    omega)]
  apply List.map_congr_left
  intro j hj
  rw [List.mem_range] at hj
  have hK : 0 < K := by omega
  have hNK : 0 < N * K := by
    have : 0 < N := by omega
    exact Nat.mul_pos this hK
  have hdiv : ((m * N + n) * K + j) / (N * K) = m := by
    have e1 : (m * N + n) * K + j = N * K * m + (n * K + j) := by ring
    have hlt : n * K + j < N * K := by
      have h2 : n * K + j < (n + 1) * K := by
        have : (n + 1) * K = n * K + K := by ring
        omega
      have h3 : (n + 1) * K ≤ N * K := Nat.mul_le_mul_right K (by omega)
      omega
    rw [e1, Nat.mul_add_div hNK, Nat.div_eq_of_lt hlt, Nat.add_zero]
  have hmod : ((m * N + n) * K + j) % K = j := by
    have e1 : (m * N + n) * K + j = K * (m * N + n) + j := by ring
    rw [e1, Nat.mul_add_mod, Nat.mod_eq_of_lt hj]
  rw [hdiv, hmod]

/-- C2: fed A row-major once (Buffered) or with each row repeated N times
(Repeated) and B transposed once per row of A, both Matmul behaviors emit the
M by N entries of the product A times B in row-major order, exactly, over any
commutative ring. -/
theorem matmul_both_behaviors_product {F : Type} [CommRing F] (M N K : Nat)
    (A B : Nat → Nat → F) :
    bufferedMatmul macOp M N K (matmulLeftOnce K A M) (matmulRight N K B M)
        = matmulGold M N K A B
      ∧ repeatedMatmul macOp M N K (matmulLeftRepeated N K A M)
          (matmulRight N K B M)
        = matmulGold M N K A B := by
  constructor
  · show (List.map _ (List.range M)).flatten
        = (List.map _ (List.range M)).flatten
    congr 1
    apply List.map_congr_left
    intro m hm
    rw [List.mem_range] at hm
    apply List.map_congr_left
    intro n hn
    rw [List.mem_range] at hn
    rw [leftOnce_slice A M K m hm, right_slice B M N K m n hm hn,
      dotMac_macOp_sum _ _ 0 (by simp), zipWith_map_same]
    simp
  · show (List.map _ (List.range M)).flatten
        = (List.map _ (List.range M)).flatten
    congr 1
    apply List.map_congr_left
    intro m hm
    rw [List.mem_range] at hm
    apply List.map_congr_left
    intro n hn
    rw [List.mem_range] at hn
    rw [leftRepeated_slice A M N K m n hm hn, right_slice B M N K m n hm hn,
      dotMac_macOp_sum _ _ 0 (by simp), zipWith_map_same]
    simp

/-- An exponential map (a homomorphism from addition to multiplication with
no zeroes) sends zero to one. -/
theorem expMap_zero {F : Type} [LinearOrderedField F] (E : F → F)
    (hE : ∀ a b, E (a + b) = E a * E b) (hE0 : ∀ x, E x ≠ 0) : E 0 = 1 := by
  have h : E 0 * 1 = E 0 * E 0 := by
    rw [mul_one]
    have := hE 0 0
    simpa using this
  exact (mul_left_cancel₀ (hE0 0) h).symm

/-- The difference identity of the exponential map. -/
theorem expMap_sub_mul {F : Type} [LinearOrderedField F] (E : F → F)
    (hE : ∀ a b, E (a + b) = E a * E b) (a b : F) :
    E (a - b) * E b = E a := by
  rw [← hE]
  congr 1
  exact sub_add_cancel a b

/-- The inverse identity of the exponential map. -/
theorem expMap_neg_mul {F : Type} [LinearOrderedField F] (E : F → F)
    (hE : ∀ a b, E (a + b) = E a * E b) (hE0 : ∀ x, E x ≠ 0) (a : F) :
    E (-a) * E a = 1 := by
  have h := expMap_sub_mul E hE 0 a
  rw [zero_sub] at h
  rw [h]
  exact expMap_zero E hE hE0

/-- Reading every position of a list back with a default rebuilds the
list. -/
theorem map_range_getD {F : Type} [Zero F] (l : List F) :
    (List.range l.length).map (fun i => l.getD i 0) = l := by
  apply List.ext_getElem
  · simp
  · intro i h1 h2
    simp only [List.getElem_map, List.getElem_range]
    exact List.getD_eq_getElem l 0 h2

/-- The exp-weighted combination over an empty row is zero. -/
theorem expWeight_nil {F : Type} [LinearOrderedField F] (E : F → F)
    (vrows : List (List F)) (i : Nat) : expWeight E [] vrows i = 0 := rfl

/-- Peeling one score and one V row off the exp-weighted combination. -/
theorem expWeight_cons {F : Type} [LinearOrderedField F] (E : F → F)
    (s : F) (rest : List F) (v : List F) (vrest : List (List F)) (i : Nat) :
    expWeight E (s :: rest) (v :: vrest) i
      = E s * v.getD i 0 + expWeight E rest vrest i := by
  simp [expWeight, List.zip_cons_cons]

/-- Peeling one score off the exponential row sum. -/
theorem sumExpS_cons {F : Type} [LinearOrderedField F] (E : F → F)
    (s : F) (rest : List F) :
    sumExpS E (s :: rest) = E s + sumExpS E rest := by
  simp [sumExpS]

/-- The per-window invariant of the agnostic pipeline, stated for a window
continuing from scan state rr0 with residual accumulator rAcc and product
accumulator oAcc.  Writing M for the running maximum after the remaining
scores, the residual Reduce ends at E(-M) times (rAcc rescaled by E of the
old maximum, plus the sum of E over the remaining scores), and the product
Reduce ends coordinatewise at the matching exp-weighted combination of the V
rows. -/
theorem agnostic_window_inv {F : Type} [LinearOrderedField F] (E : F → F)
    (hE : ∀ a b, E (a + b) = E a * E b) (hE0 : ∀ x, E x ≠ 0) :
    ∀ (scores : List F) (vrows : List (List F)) (rr0 : RunningResult F)
      (rAcc : F) (oAcc : List F),
      vrows.length = scores.length →
      (∀ v ∈ vrows, oAcc.length ≤ v.length) →
      windowFold residualUpdate
          (scanWindow (scanUpdate E) (some rr0) scores) (some rAcc)
        = some (E (-(scores.foldl max rr0.cur_max))
            * (rAcc * E rr0.cur_max + sumExpS E scores))
      ∧ prodRun ((scanWindow (scanUpdate E) (some rr0) scores).zip vrows)
          (some oAcc)
        = some ((List.range oAcc.length).map (fun i =>
            E (-(scores.foldl max rr0.cur_max))
              * (oAcc.getD i 0 * E rr0.cur_max
                + expWeight E scores vrows i))) := by
  intro scores
  induction scores with
  | nil =>
    intro vrows rr0 rAcc oAcc hlen _hrows
    have hv : vrows = [] := List.eq_nil_of_length_eq_zero (by simpa using hlen)
    subst hv
    have hne := expMap_neg_mul E hE hE0 rr0.cur_max
    constructor
    · show some rAcc = _
      simp only [List.foldl_nil, sumExpS, List.map_nil, List.sum_nil]
      congr 1
      linear_combination (-rAcc) * hne
    · show some oAcc = _
      simp only [List.foldl_nil]
      congr 1
      conv_lhs => rw [← map_range_getD oAcc]
      apply List.map_congr_left
      intro i _
      rw [expWeight_nil]
      linear_combination (-(oAcc.getD i 0)) * hne
  | cons s rest ih =>
    intro vrows rr0 rAcc oAcc hlen hrows
    cases vrows with
    | nil => simp at hlen
    | cons v vrest =>
      have hlen' : vrest.length = rest.length := by simpa using hlen
      have hov : oAcc.length ≤ v.length := hrows v (List.mem_cons_self _ _)
      have hrows' : ∀ v' ∈ vrest,
          (List.zipWith (fun o vi => o * E (rr0.cur_max - max s rr0.cur_max)
            + E (s - max s rr0.cur_max) * vi) oAcc v).length ≤ v'.length := by
        intro v' hv'
        rw [List.length_zipWith]
        have := hrows v' (List.mem_cons_of_mem _ hv')
        omega
      obtain ⟨ih1, ih2⟩ := ih vrest (scanUpdate E s (some rr0))
        (rAcc * E (rr0.cur_max - max s rr0.cur_max)
          + E (s - max s rr0.cur_max))
        (List.zipWith (fun o vi => o * E (rr0.cur_max - max s rr0.cur_max)
          + E (s - max s rr0.cur_max) * vi) oAcc v)
        hlen' hrows'
      have hmax : (scanUpdate E s (some rr0)).cur_max = max s rr0.cur_max := rfl
      have hfold : (s :: rest).foldl max rr0.cur_max
          = rest.foldl max (max s rr0.cur_max) := by
        simp only [List.foldl_cons]
        rw [max_comm rr0.cur_max s]
      have h1 := expMap_sub_mul E hE rr0.cur_max (max s rr0.cur_max)
      have h2 := expMap_sub_mul E hE s (max s rr0.cur_max)
      have hscan : scanWindow (scanUpdate E) (some rr0) (s :: rest)
          = scanUpdate E s (some rr0)
            :: scanWindow (scanUpdate E)
                (some (scanUpdate E s (some rr0))) rest := rfl
      constructor
      · rw [hscan, windowFold_cons]
        have hres : residualUpdate (scanUpdate E s (some rr0)) (some rAcc)
            = rAcc * E (rr0.cur_max - max s rr0.cur_max)
              + E (s - max s rr0.cur_max) := rfl
        rw [hres, ih1, hmax, hfold, sumExpS_cons]
        congr 1
        linear_combination
          E (-(rest.foldl max (max s rr0.cur_max))) * rAcc * h1
            + E (-(rest.foldl max (max s rr0.cur_max))) * h2
      · rw [hscan]
        have hstep : prodRun ((scanUpdate E s (some rr0)
              :: scanWindow (scanUpdate E)
                  (some (scanUpdate E s (some rr0))) rest).zip (v :: vrest))
              (some oAcc)
            = prodRun ((scanWindow (scanUpdate E)
                  (some (scanUpdate E s (some rr0))) rest).zip vrest)
                (some (List.zipWith
                  (fun o vi => o * E (rr0.cur_max - max s rr0.cur_max)
                    + E (s - max s rr0.cur_max) * vi) oAcc v)) := by
          show (match prodUpdate (scanUpdate E s (some rr0)) v (some oAcc) with
            | some newv => prodRun ((scanWindow (scanUpdate E)
                (some (scanUpdate E s (some rr0))) rest).zip vrest) (some newv)
            | none => none) = _
          have hup : prodUpdate (scanUpdate E s (some rr0)) v (some oAcc)
              = some (List.zipWith
                  (fun o vi => o * E (rr0.cur_max - max s rr0.cur_max)
                    + E (s - max s rr0.cur_max) * vi) oAcc v) := by
            show (if oAcc.length ≤ v.length then
                some (List.zipWith
                  (fun o vi => o * E (rr0.cur_max - max s rr0.cur_max)
                    + E (s - max s rr0.cur_max) * vi) oAcc v)
              else none) = _
            rw [if_pos hov]
          rw [hup]
        rw [hstep, ih2, hmax, hfold]
        congr 1
        have hlenz : (List.zipWith
            (fun o vi => o * E (rr0.cur_max - max s rr0.cur_max)
              + E (s - max s rr0.cur_max) * vi) oAcc v).length
            = oAcc.length := by
          rw [List.length_zipWith]
          omega
        rw [hlenz]
        apply List.map_congr_left
        intro i hi
        rw [List.mem_range] at hi
        have hi2 : i < v.length := by omega
        have hi3 : i < (List.zipWith
            (fun o vi => o * E (rr0.cur_max - max s rr0.cur_max)
              + E (s - max s rr0.cur_max) * vi) oAcc v).length := by
          rw [List.length_zipWith]
          omega
        have hget : (List.zipWith
            (fun o vi => o * E (rr0.cur_max - max s rr0.cur_max)
              + E (s - max s rr0.cur_max) * vi) oAcc v).getD i 0
            = oAcc.getD i 0 * E (rr0.cur_max - max s rr0.cur_max)
              + E (s - max s rr0.cur_max) * v.getD i 0 := by
          rw [List.getD_eq_getElem _ _ hi3, List.getElem_zipWith,
            List.getD_eq_getElem _ _ hi, List.getD_eq_getElem _ _ hi2]
        rw [hget, expWeight_cons]
        linear_combination
          E (-(rest.foldl max (max s rr0.cur_max))) * (oAcc.getD i 0) * h1
            + E (-(rest.foldl max (max s rr0.cur_max))) * (v.getD i 0) * h2

/-- The naive probability-times-V dot product for one output coordinate is
the exp-weighted combination divided by the row sum. -/
theorem naive_col_sum {F : Type} [LinearOrderedField F] (E : F → F) (S : F)
    (i : Nat) :
    ∀ (scores : List F) (vrows : List (List F)),
      vrows.length = scores.length →
      (List.zipWith (fun a b => a * b) (scores.map (fun s => E s / S))
          ((List.range scores.length).map
            (fun k => (vrows.getD k []).getD i 0))).sum
        = expWeight E scores vrows i / S := by
  intro scores
  induction scores with
  | nil =>
    intro vrows _
    simp [expWeight_nil]
  | cons s rest ihs =>
    intro vrows h
    cases vrows with
    | nil => simp at h
    | cons v vrest =>
      have h' : vrest.length = rest.length := by simpa using h
      rw [List.length_cons, List.range_succ_eq_map, List.map_cons,
        List.map_cons, List.map_map, List.zipWith_cons_cons, List.sum_cons]
      have hcomp : ((fun k => ((v :: vrest).getD k []).getD i 0) ∘ Nat.succ)
          = fun k => (vrest.getD k []).getD i 0 := by
        funext k
        simp [List.getD_cons_succ]
      rw [hcomp, ihs vrest h', expWeight_cons]
      have hhead : ((v :: vrest).getD 0 []).getD i 0 = v.getD i 0 := rfl
      rw [hhead, div_mul_eq_mul_div, div_add_div_same]

/-- Reduction lemma: the agnostic per-row output once both Reduce windows are
known to land. -/
theorem agnosticRowOut_eq {F : Type} [LinearOrderedField F] (E : F → F)
    (scores : List F) (vrows : List (List F)) (r : F) (o : List F)
    (h1 : windowFold residualUpdate
        (scanWindow (scanUpdate E) none scores) none = some r)
    (h2 : prodRun ((scanWindow (scanUpdate E) none scores).zip vrows) none
        = some o) :
    agnosticRowOut E scores vrows = some (o.map (fun x => x / r)) := by
  show (match windowFold residualUpdate
      (scanWindow (scanUpdate E) none scores) none,
      prodRun ((scanWindow (scanUpdate E) none scores).zip vrows) none with
    | some r', some o' => some (o'.map (fun x => x / r'))
    | _, _ => none) = _
  rw [h1, h2]

/-- Reduction lemma: the naive per-row output once the row sum is known. -/
theorem naiveRowOut_eq {F : Type} [LinearOrderedField F] (E : F → F)
    (D : Nat) (scores : List F) (vrows : List (List F)) (r : F)
    (h1 : windowFold addUpdate (scores.map E) none = some r) :
    naiveRowOut E D scores vrows
      = some (bufferedMatmul macOp 1 D scores.length
          ((scores.map E).map (fun e => e / r))
          ((List.range (D * scores.length)).map (fun i =>
            (vrows.getD (i % scores.length) []).getD
              (i / scores.length) 0))) := by
  show (match windowFold addUpdate (scores.map E) none with
    | none => none
    | some r' => some (bufferedMatmul macOp 1 D scores.length
        ((scores.map E).map (fun e => e / r'))
        ((List.range (D * scores.length)).map (fun i =>
          (vrows.getD (i % scores.length) []).getD
            (i / scores.length) 0)))) = _
  rw [h1]

/-- C1: over exact arithmetic (any linear ordered field with an abstract
exponential map E satisfying E(a+b) = E(a)E(b) and E never zero), the
agnostic pipeline's composed per-row computation (online-softmax Scan, then
residual Reduce, then vector-product Reduce over the V rows, then the
divide-and-emit Flatmap) produces at window end exactly the same row of D
outputs as the naive pipeline (exp Map, row-sum Reduce, Repeat, divide Map,
Buffered Matmul against V transposed). -/
theorem agnostic_matches_naive {F : Type} [LinearOrderedField F] (E : F → F)
    (hE : ∀ a b, E (a + b) = E a * E b) (hE0 : ∀ x, E x ≠ 0)
    (D : Nat) (scores : List F) (vrows : List (List F))
    (hne : scores ≠ []) (hlen : vrows.length = scores.length)
    (hD : ∀ v ∈ vrows, v.length = D) :
    agnosticRowOut E scores vrows = naiveRowOut E D scores vrows := by
  match scores, hne with
  | s :: rest, _ =>
  cases vrows with
  | nil => simp at hlen
  | cons v vrest =>
    have hlen' : vrest.length = rest.length := by simpa using hlen
    have hvD : v.length = D := hD v (List.mem_cons_self _ _)
    have hrowsD : ∀ v' ∈ vrest, v'.length = D := fun v' hv' =>
      hD v' (List.mem_cons_of_mem _ hv')
    obtain ⟨inv1, inv2⟩ := agnostic_window_inv E hE hE0 rest vrest
      (scanUpdate E s none) 1 (v.map (fun x => x * 1)) hlen'
      (by
        intro v' hv'
        rw [List.length_map, hvD, hrowsD v' hv'])
    have hm : (scanUpdate E s none).cur_max = s := rfl
    rw [hm] at inv1 inv2
    have hsc : scanWindow (scanUpdate E) none (s :: rest)
        = scanUpdate E s none
          :: scanWindow (scanUpdate E) (some (scanUpdate E s none)) rest := rfl
    have hres : windowFold residualUpdate
        (scanWindow (scanUpdate E) none (s :: rest)) none
        = some (E (-(rest.foldl max s)) * sumExpS E (s :: rest)) := by
      rw [hsc, windowFold_cons]
      have h0 : residualUpdate (scanUpdate E s none) (none : Option F) = 1 := rfl
      rw [h0, inv1, sumExpS_cons]
      congr 1
      ring
    have hprod : prodRun ((scanWindow (scanUpdate E) none (s :: rest)).zip
          (v :: vrest)) none
        = some ((List.range D).map (fun i =>
            E (-(rest.foldl max s))
              * expWeight E (s :: rest) (v :: vrest) i)) := by
      rw [hsc]
      have hstep : prodRun ((scanUpdate E s none
            :: scanWindow (scanUpdate E) (some (scanUpdate E s none)) rest).zip
              (v :: vrest)) none
          = prodRun ((scanWindow (scanUpdate E)
                (some (scanUpdate E s none)) rest).zip vrest)
              (some (v.map (fun x => x * 1))) := rfl
      rw [hstep, inv2]
      have hlenm : (v.map (fun x => x * 1)).length = D := by
        rw [List.length_map, hvD]
      rw [hlenm]
      congr 1
      apply List.map_congr_left
      intro i hi
      rw [List.mem_range] at hi
      have hiv : i < v.length := by omega
      have him : i < (v.map (fun x => x * 1)).length := by
        rw [List.length_map]
        omega
      have hget : (v.map (fun x => x * 1)).getD i 0 = v.getD i 0 * 1 := by
        rw [List.getD_eq_getElem _ _ him, List.getElem_map,
          List.getD_eq_getElem _ _ hiv]
      rw [hget, expWeight_cons]
      ring
    rw [agnosticRowOut_eq E (s :: rest) (v :: vrest) _ _ hres hprod]
    have hsumN : windowFold addUpdate ((s :: rest).map E) none
        = some (sumExpS E (s :: rest)) := by
      rw [windowFold_add_none _ (by simp)]
      rfl
    rw [naiveRowOut_eq E D (s :: rest) (v :: vrest) _ hsumN]
    congr 1
    rw [List.map_map]
    have hbm : bufferedMatmul macOp 1 D (s :: rest).length
        (((s :: rest).map E).map (fun e => e / sumExpS E (s :: rest)))
        ((List.range (D * (s :: rest).length)).map (fun i =>
          ((v :: vrest).getD (i % (s :: rest).length) []).getD
            (i / (s :: rest).length) 0))
        = (List.range D).map (fun n =>
            expWeight E (s :: rest) (v :: vrest) n
              / sumExpS E (s :: rest)) := by
      show ((List.range 1).map _).flatten = _
      have hr1 : List.range 1 = [0] := rfl
      rw [hr1, List.map_cons, List.map_nil]
      simp only [List.flatten_cons, List.flatten_nil, List.append_nil]
      apply List.map_congr_left
      intro n hn
      rw [List.mem_range] at hn
      rw [Nat.zero_mul, List.drop_zero]
      have hplen : ((((s :: rest).map E).map
          (fun e => e / sumExpS E (s :: rest)))).length
          = (s :: rest).length := by simp
      have htake : (((s :: rest).map E).map
            (fun e => e / sumExpS E (s :: rest))).take (s :: rest).length
          = ((s :: rest).map E).map (fun e => e / sumExpS E (s :: rest)) := by
        rw [← hplen, List.take_length]
      rw [htake]
      have hidx : (0 * D + n) * (s :: rest).length
          = n * (s :: rest).length := by ring
      rw [hidx]
      have hbound : n * (s :: rest).length + (s :: rest).length
          ≤ D * (s :: rest).length := by
        have h1 : (n + 1) * (s :: rest).length ≤ D * (s :: rest).length :=
          Nat.mul_le_mul_right _ (by omega)
        have h2 : n * (s :: rest).length + (s :: rest).length
            = (n + 1) * (s :: rest).length := by ring
        omega
      rw [slice_range_map _ _ _ _ hbound]
      have hL : 0 < (s :: rest).length := by simp
      have hslice2 : (List.range (s :: rest).length).map (fun j =>
          ((v :: vrest).getD
            ((n * (s :: rest).length + j) % (s :: rest).length) []).getD
            ((n * (s :: rest).length + j) / (s :: rest).length) 0)
          = (List.range (s :: rest).length).map (fun j =>
              ((v :: vrest).getD j []).getD n 0) := by
        apply List.map_congr_left
        intro j hj
        rw [List.mem_range] at hj
        have e1 : n * (s :: rest).length + j
            = (s :: rest).length * n + j := by ring
        have hmod : (n * (s :: rest).length + j) % (s :: rest).length = j := by
          rw [e1, Nat.mul_add_mod, Nat.mod_eq_of_lt hj]
        have hdiv : (n * (s :: rest).length + j) / (s :: rest).length = n := by
          rw [e1, Nat.mul_add_div hL, Nat.div_eq_of_lt hj, Nat.add_zero]
        rw [hmod, hdiv]
      rw [hslice2, List.map_map]
      have hcomp : ((fun e => e / sumExpS E (s :: rest)) ∘ E)
          = fun x => E x / sumExpS E (s :: rest) := rfl
      rw [hcomp, dotMac_macOp_sum _ _ 0 (by simp),
        naive_col_sum E (sumExpS E (s :: rest)) n (s :: rest) (v :: vrest)
          hlen, zero_add]
    rw [hbm]
    apply List.map_congr_left
    intro i _
    show (E (-(rest.foldl max s)) * expWeight E (s :: rest) (v :: vrest) i)
        / (E (-(rest.foldl max s)) * sumExpS E (s :: rest))
      = expWeight E (s :: rest) (v :: vrest) i / sumExpS E (s :: rest)
    exact mul_div_mul_left _ _ (hE0 _)

/-- Witness for C1 at a concrete two-score window over the rationals with
the constant-one map standing in for the exponential (it satisfies both
exponential hypotheses). -/
theorem agnostic_matches_naive_witness :
    ([(1 : ℚ), 2] ≠ ([] : List ℚ))
      ∧ ([[(2 : ℚ)], [(3 : ℚ)]] : List (List ℚ)).length
          = ([(1 : ℚ), 2] : List ℚ).length
      ∧ agnosticRowOut (fun _ => (1 : ℚ)) [1, 2] [[2], [3]]
          = naiveRowOut (fun _ => (1 : ℚ)) 1 [1, 2] [[2], [3]] :=
  ⟨by simp, by simp,
    agnostic_matches_naive (fun _ => (1 : ℚ)) (fun a b => by norm_num)
      (fun x => by norm_num) 1 [1, 2] [[2], [3]] (by simp) (by simp)
      (by decide)⟩
